import Mathlib

set_option maxRecDepth 8000

/- Verification of the pathfinding engine in src/pathfinder/algorithms
   (algo_utils.py, dijkstra.py, astar.py, bidijkstra.py).

   Modelling conventions:
   * A position is a pair of integers, as in the Python tuples `(i, j)`
     produced by `Node((i, j), ...)`; the first component is the row index
     (bounded by `row_amount`), the second the column index.
   * `g_cost`/`h_cost` values live in `WithTop ℕ`; `⊤` stands for
     `float("inf")`.
   * The per-instance node grid is represented by cost functions
     `Pos → WithTop ℕ` over grid positions; `unvisited_pos` is a `Finset`,
     `visited_pos` and `path` are lists, and the `mix` dict is a partial map
     `Pos → Option ℚ` (raw integer costs are stored as rationals, since the
     final normalisation turns the same dict into ratios in place).
   * Python raises (`ValueError` from `min([])`, `ZeroDivisionError`,
     `RecursionError` from unbounded recursion) are modelled by `none`
     results; recursion is fuelled, with fuel standing for the interpreter's
     recursion limit.
   * Python iterates `set` objects of `Node`s in an unspecified (id-hash)
     order; all such iterations are embedded in the deterministic row-major
     order in which the source builds those sets by scanning the grid.
   * The detached `Node` that `__init__` creates when `start_pos`/`end_pos`
     lies outside the grid is never read back through the grid scans, so the
     embedding only records its observable effects: `g` at `start_pos`, and
     `endNodeG` which yields `⊤` whenever `end_pos` is not a grid position.
-/

abbrev Pos : Type := ℤ × ℤ

structure PFInput where
  start_pos : Pos
  end_pos : Pos
  row_amount : ℕ
  column_amount : ℕ
  wall_pos : Finset Pos
deriving DecidableEq

/-- Row-major enumeration of the grid, the order of every
`for column in self.grid: for node in column:` scan in the source. -/
def rowMajor (rows cols : ℕ) : List Pos :=
  (List.range rows).flatMap (fun (i : ℕ) => (List.range cols).map (fun (j : ℕ) => ((i : ℤ), (j : ℤ))))

def gridPositions (inp : PFInput) : Finset Pos :=
  (rowMajor inp.row_amount inp.column_amount).toFinset

/-- The four candidate offsets of `algo_utils.get_neighbours`. -/
def neighbourOffsets : List (ℤ × ℤ) := [(1, 0), (-1, 0), (0, 1), (0, -1)]

/-- The `neighbours_pos` set of `algo_utils.get_neighbours`: the four
orthogonal candidates that are in bounds and not walls. -/
def neighbourCandidates (inp : PFInput) (p : Pos) : List Pos :=
  (neighbourOffsets.map (fun o => (p.1 + o.1, p.2 + o.2))).filter
    (fun q => decide (0 ≤ q.1 ∧ q.1 < (inp.row_amount : ℤ) ∧
      0 ≤ q.2 ∧ q.2 < (inp.column_amount : ℤ) ∧ q ∉ inp.wall_pos))

/-- `algo_utils.get_neighbours`: the grid nodes whose position is in
`neighbours_pos`, collected by the row-major grid scan. -/
def get_neighbours (inp : PFInput) (p : Pos) : List Pos :=
  (rowMajor inp.row_amount inp.column_amount).filter
    (fun q => decide (q ∈ neighbourCandidates inp p))

/-- Python's `min(l, key)`: the first element of `l` whose key is minimal,
`none` on the empty list (`ValueError`). -/
def firstMinBy (key : Pos → WithTop ℕ) : List Pos → Option Pos
  | [] => none
  | p :: ps => some (ps.foldl (fun b q => if key q < key b then q else b) p)

/-- `algo_utils.get_smallest_g_cost_unvisited_node`: scan the grid row-major,
keep unvisited positions, take the first minimum by `g_cost`. -/
def get_smallest_g_cost_unvisited_node (inp : PFInput) (g : Pos → WithTop ℕ)
    (unvisited : Finset Pos) : Option Pos :=
  firstMinBy g
    ((rowMajor inp.row_amount inp.column_amount).filter (fun q => decide (q ∈ unvisited)))

/-- `round(value / norm, 3)`: round-half-to-even (Python's rounding mode) of
the exact rational `v / n` to three decimal places. Computed on numerator and
denominator with integer floor division, multiplied out to avoid the
quotient: with `a / b = 1000 * (v / n)`, the rounded integer is `⌊a / b⌋`,
bumped when the remainder exceeds half of `b`, or on a tie when `⌊a / b⌋` is
odd. (The source rounds binary floats; the embedding rounds exactly.) -/
def round3Div (v : ℚ) (n : ℕ) : ℚ :=
  let a : ℤ := 1000 * v.num
  let b : ℤ := (v.den : ℤ) * (n : ℤ)
  let fl : ℤ := Int.fdiv a b
  let r : ℤ := a - fl * b
  let z : ℤ :=
    if 2 * r < b then fl
    else if b < 2 * r then fl + 1
    else if fl % 2 = 0 then fl else fl + 1
  mkRat z 1000

/-- The in-place `self.mix[key] = round(value / norm, 3)` normalisation loop
shared by the three solvers: `none` models `ZeroDivisionError` when the
normalising distance is `0`; division by `float("inf")` yields `0.0`. -/
def normalizeMix (mix : Pos → Option ℚ) (d : WithTop ℕ) : Option (Pos → Option ℚ) :=
  if hd : d = ⊤ then some (fun p => (mix p).map (fun _ => (0 : ℚ)))
  else
    let n := d.untop hd
    if n = 0 then none
    else some (fun p => (mix p).map (fun v => round3Div v n))

/-! ## Dijkstra (dijkstra.py) -/

structure DState where
  g : Pos → WithTop ℕ
  unvisited_pos : Finset Pos
  visited_pos : List Pos
  path : List Pos
  mix : Pos → Option ℚ

/-- `Dijkstra.__init__`: every grid node at `inf`, the start node at `0`
(`g start_pos = 0` also records the detached out-of-grid start node, which no
grid scan ever reads), all grid positions unvisited. -/
def dijkstraInit (inp : PFInput) : DState :=
  { g := fun p => if p = inp.start_pos then 0 else ⊤
    unvisited_pos := gridPositions inp
    visited_pos := []
    path := []
    mix := fun _ => none }

/-- `self.end_node.g_cost`: the live grid cell when `end_pos` is on the grid,
otherwise the detached node's untouched `inf`. -/
def endNodeG (inp : PFInput) (g : Pos → WithTop ℕ) : WithTop ℕ :=
  if inp.end_pos ∈ gridPositions inp then g inp.end_pos else ⊤

/-- One neighbour relaxation of `Dijkstra.solve` (with `gc` the expanded
node's finite `g_cost`): skip when `neigh.g_cost < new_dist`, otherwise
overwrite the cost and record it in `mix`. -/
def dijkstraRelax (gc : ℕ) (s : DState) (n : Pos) : DState :=
  if s.g n < ((gc + 1 : ℕ) : WithTop ℕ) then s
  else { s with
    g := fun q => if q = n then ((gc + 1 : ℕ) : WithTop ℕ) else s.g q
    mix := fun q => if q = n then some ((gc + 1 : ℕ) : ℚ) else s.mix q }

/-- `Dijkstra.backtrack_path`: prepend the current position, take the
first-minimal-`g_cost` neighbour (`none` on an empty neighbour list, the
`ValueError` of `min([])`), stop once `start_pos` is in the path. Fuel models
the recursion limit. -/
def backtrack_path (inp : PFInput) (g : Pos → WithTop ℕ) :
    ℕ → List Pos → Pos → Option (List Pos)
  | 0, _, _ => none
  | fuel + 1, path, cur =>
    let path1 := cur :: path
    match firstMinBy g (get_neighbours inp cur) with
    | none => none
    | some sm =>
      if inp.start_pos ∈ path1 then some path1
      else backtrack_path inp g fuel path1 sm

def backtrackFuel (inp : PFInput) : ℕ := inp.row_amount * inp.column_amount + 1

inductive StepRes (σ : Type) where
  | done : Option σ → StepRes σ
  | cont : σ → StepRes σ

/-- The terminating branch of `Dijkstra.solve`: normalise `mix` by the end
node's `g_cost` and backtrack from the end node. -/
def dijkstraFinish (inp : PFInput) (s : DState) : StepRes DState :=
  match normalizeMix s.mix (endNodeG inp s.g) with
  | none => .done none
  | some mix1 =>
    match backtrack_path inp s.g (backtrackFuel inp) s.path inp.end_pos with
    | none => .done none
    | some p => .done (some { s with mix := mix1, path := p })

/-- One invocation of `Dijkstra.solve` up to its tail recursion. -/
def dijkstraStep (inp : PFInput) (s : DState) : StepRes DState :=
  match get_smallest_g_cost_unvisited_node inp s.g s.unvisited_pos with
  | none => .done none
  | some cur =>
    if cur ∉ s.unvisited_pos then .done (some s)
    else if hgc : s.g cur = ⊤ then .done (some s)
    else
      let gc := (s.g cur).untop hgc
      let s1 := (get_neighbours inp cur).foldl (dijkstraRelax gc) s
      let s2 := { s1 with mix := fun q => if q = cur then some ((gc : ℕ) : ℚ) else s1.mix q }
      if inp.end_pos ∉ s2.unvisited_pos then dijkstraFinish inp s2
      else
        match get_smallest_g_cost_unvisited_node inp s2.g s2.unvisited_pos with
        | none => .done none
        | some m =>
          if s2.g m = ⊤ then dijkstraFinish inp s2
          else
            let s3 := { s2 with
              unvisited_pos := s2.unvisited_pos.erase cur
              visited_pos := s2.visited_pos ++ [cur] }
            match get_smallest_g_cost_unvisited_node inp s3.g s3.unvisited_pos with
            | none => .done none
            | some _ => .cont s3

def dijkstraLoop (inp : PFInput) : ℕ → DState → Option DState
  | 0, _ => none
  | fuel + 1, s =>
    match dijkstraStep inp s with
    | .done r => r
    | .cont s1 => dijkstraLoop inp fuel s1

/-- One solve needs at most one iteration per grid cell plus the final one. -/
def dijkstraFuel (inp : PFInput) : ℕ := inp.row_amount * inp.column_amount + 1

def dijkstraSolve (inp : PFInput) : Option DState :=
  dijkstraLoop inp (dijkstraFuel inp) (dijkstraInit inp)

/-! ## A* (astar.py) -/

structure AState where
  g : Pos → WithTop ℕ
  h : Pos → WithTop ℕ
  unvisited_pos : Finset Pos
  visited_pos : List Pos
  path : List Pos
  mix : Pos → Option ℚ

/-- `Astar.set_h_cost`: Manhattan distance to the end node. -/
def manh (p q : Pos) : ℕ := (p.1 - q.1).natAbs + (p.2 - q.2).natAbs

/-- `Node.f_cost` = `g_cost + h_cost` (`⊤` absorbs). -/
def fCost (s : AState) (p : Pos) : WithTop ℕ := s.g p + s.h p

/-- `Astar.__init__`: like Dijkstra's, with all `h_cost` at `inf` except the
start node, whose heuristic is set by the final `set_h_cost` call. -/
def astarInit (inp : PFInput) : AState :=
  { g := fun p => if p = inp.start_pos then 0 else ⊤
    h := fun p => if p = inp.start_pos then ((manh p inp.end_pos : ℕ) : WithTop ℕ) else ⊤
    unvisited_pos := gridPositions inp
    visited_pos := []
    path := []
    mix := fun _ => none }

/-- `Astar.get_smallest_h_cost_unvisited_node`. -/
def get_smallest_h_cost_unvisited_node (inp : PFInput) (s : AState) : Option Pos :=
  firstMinBy s.h
    ((rowMajor inp.row_amount inp.column_amount).filter (fun q => decide (q ∈ s.unvisited_pos)))

/-- `Astar.get_smallest_f_cost_unvisited_node`: the first-minimal-`g_cost`
unvisited node (despite the variable's name), paired with how many unvisited
nodes share its `f_cost`. -/
def get_smallest_f_cost_unvisited_node (inp : PFInput) (s : AState) : Option (Pos × ℕ) :=
  match firstMinBy s.g
      ((rowMajor inp.row_amount inp.column_amount).filter
        (fun q => decide (q ∈ s.unvisited_pos))) with
  | none => none
  | some c =>
    some (c, ((rowMajor inp.row_amount inp.column_amount).filter
      (fun q => decide (fCost s q = fCost s c ∧ q ∈ s.unvisited_pos))).length)

/-- The selection at the head of `Astar.solve` (lines 136-142): the candidate
itself when its `f_cost` is uniquely held, otherwise the globally
smallest-`h_cost` unvisited node. -/
def astarChosen (inp : PFInput) (s : AState) : Option Pos :=
  match get_smallest_f_cost_unvisited_node inp s with
  | none => none
  | some (c, k) =>
    if 1 < k then get_smallest_h_cost_unvisited_node inp s else some c

/-- One neighbour relaxation of `Astar.solve`: as Dijkstra's, additionally
recomputing the neighbour's `h_cost`. -/
def astarRelax (inp : PFInput) (gc : ℕ) (s : AState) (n : Pos) : AState :=
  if s.g n < ((gc + 1 : ℕ) : WithTop ℕ) then s
  else { s with
    g := fun q => if q = n then ((gc + 1 : ℕ) : WithTop ℕ) else s.g q
    h := fun q => if q = n then ((manh n inp.end_pos : ℕ) : WithTop ℕ) else s.h q
    mix := fun q => if q = n then some ((gc + 1 : ℕ) : ℚ) else s.mix q }

/-- The `for each in n_copy: if ...: n_copy.remove(each)` loop of
`Astar.backtrack_path`: Python removes elements of the list being iterated,
so the element that slides into the removed slot is kept unexamined. -/
def pyFilterSkip (keep : Pos → Bool) : List Pos → List Pos
  | [] => []
  | [x] => if keep x then [x] else []
  | x :: y :: rest =>
    if keep x then x :: pyFilterSkip keep (y :: rest)
    else y :: pyFilterSkip keep rest

/-- `Astar.backtrack_path`: like Dijkstra's, but the neighbour list is first
reduced (via the skipping removal loop) to visited nodes. -/
def astar_backtrack_path (inp : PFInput) (g : Pos → WithTop ℕ) (visited : List Pos) :
    ℕ → List Pos → Pos → Option (List Pos)
  | 0, _, _ => none
  | fuel + 1, path, cur =>
    let path1 := cur :: path
    let ns := pyFilterSkip (fun q => decide (q ∈ visited)) (get_neighbours inp cur)
    match firstMinBy g ns with
    | none => none
    | some sm =>
      if inp.start_pos ∈ path1 then some path1
      else astar_backtrack_path inp g visited fuel path1 sm

/-- `self.end_node.g_cost` for the A* instance. -/
def astarEndNodeG (inp : PFInput) (s : AState) : WithTop ℕ :=
  if inp.end_pos ∈ gridPositions inp then s.g inp.end_pos else ⊤

/-- The terminating branch of `Astar.solve`. -/
def astarFinish (inp : PFInput) (s : AState) : StepRes AState :=
  match normalizeMix s.mix (astarEndNodeG inp s) with
  | none => .done none
  | some mix1 =>
    match astar_backtrack_path inp s.g s.visited_pos (backtrackFuel inp) s.path inp.end_pos with
    | none => .done none
    | some p => .done (some { s with mix := mix1, path := p })

/-- One invocation of `Astar.solve` up to its tail recursion. The
re-selection at lines 179-182 is dead (the recursive call recomputes it), but
the `min` scans at lines 164-166 still raise on an emptied unvisited set. -/
def astarStep (inp : PFInput) (s : AState) : StepRes AState :=
  match astarChosen inp s with
  | none => .done none
  | some cur =>
    if fCost s cur = ⊤ then .done (some s)
    else
      let s0 := { s with
        h := fun q => if q = cur then ((manh cur inp.end_pos : ℕ) : WithTop ℕ) else s.h q }
      match s0.g cur with
      | ⊤ => .done none  -- unreachable: the f_cost guard above forces a finite g_cost
      | (gc : ℕ) =>
        let s1 := { s0 with
          unvisited_pos := s0.unvisited_pos.erase cur
          visited_pos := s0.visited_pos ++ [cur] }
        let s2 := (get_neighbours inp cur).foldl (astarRelax inp gc) s1
        let s3 := { s2 with mix := fun q => if q = cur then some ((gc : ℕ) : ℚ) else s2.mix q }
        match get_smallest_f_cost_unvisited_node inp s3 with
        | none => .done none
        | some _ =>
          match get_smallest_h_cost_unvisited_node inp s3 with
          | none => .done none
          | some _ =>
            if inp.end_pos ∉ s3.unvisited_pos then astarFinish inp s3
            else
              match firstMinBy s3.g
                  ((rowMajor inp.row_amount inp.column_amount).filter
                    (fun q => decide (q ∈ s3.unvisited_pos))) with
              | none => .done none
              | some m => if s3.g m = ⊤ then astarFinish inp s3 else .cont s3

def astarLoop (inp : PFInput) : ℕ → AState → Option AState
  | 0, _ => none
  | fuel + 1, s =>
    match astarStep inp s with
    | .done r => r
    | .cont s1 => astarLoop inp fuel s1

def astarSolve (inp : PFInput) : Option AState :=
  astarLoop inp (dijkstraFuel inp) (astarInit inp)

/-! ## Bidirectional Dijkstra (bidijkstra.py) -/

/-- The `parent` tag: the `"start"` / `"end"` strings of the source. -/
inductive Side where
  | fromStart : Side
  | fromEnd : Side
deriving DecidableEq

structure BState where
  g : Pos → WithTop ℕ
  parent : Pos → Option Side
  unvisited_pos : Finset Pos
  visited_pos : List Pos
  path : List Pos
  mix : Pos → Option ℚ
  middle_node : Option Pos

/-- `BiDijkstra.__init__`: both sources at `g_cost = 0`; the `end` parent tag
is assigned after the `start` one, so it wins when `start_pos = end_pos`. -/
def biInit (inp : PFInput) : BState :=
  { g := fun p => if p = inp.start_pos ∨ p = inp.end_pos then 0 else ⊤
    parent := fun p =>
      if p = inp.end_pos ∧ inp.end_pos ∈ gridPositions inp then some .fromEnd
      else if p = inp.start_pos ∧ inp.start_pos ∈ gridPositions inp then some .fromStart
      else none
    unvisited_pos := gridPositions inp
    visited_pos := []
    path := []
    mix := fun _ => none
    middle_node := none }

/-- The neighbour loop of `BiDijkstra.solve`: relax and propagate the parent
tag, but the first neighbour already carrying the other side's tag becomes
the middle node, is appended to `visited_pos`, and breaks the loop. -/
def biMeetRelax (gc : ℕ) (curParent : Option Side) :
    List Pos → BState → BState
  | [], s => s
  | n :: rest, s =>
    if (s.parent n).isSome ∧ s.parent n ≠ curParent then
      { s with middle_node := some n, visited_pos := s.visited_pos ++ [n] }
    else
      let s1 :=
        if s.g n < ((gc + 1 : ℕ) : WithTop ℕ) then s
        else { s with
          g := fun q => if q = n then ((gc + 1 : ℕ) : WithTop ℕ) else s.g q
          parent := fun q => if q = n then curParent else s.parent q
          mix := fun q => if q = n then some ((gc + 1 : ℕ) : ℚ) else s.mix q }
      biMeetRelax gc curParent rest s1

/-- `self.middle_node.g_cost` (the live grid cell; a middle node is always a
grid node found by `get_neighbours`). -/
def biMiddleG (s : BState) (m : Pos) : WithTop ℕ := s.g m

/-- The meeting branch of `BiDijkstra.solve` (after `visited_pos` has been
extended by the current node): two fresh `Dijkstra` instances solve
start→middle and middle→end over the same grid and walls, their paths are
concatenated, and `mix` is normalised by the middle node's `g_cost`. -/
def biFinish (inp : PFInput) (s : BState) (m : Pos) : Option BState :=
  let d1 := dijkstraSolve { inp with end_pos := m }
  let d2 := dijkstraSolve { inp with start_pos := m }
  match d1, d2 with
  | some st1, some st2 =>
    match normalizeMix s.mix (biMiddleG s m) with
    | none => none
    | some mix1 => some { s with path := st1.path ++ st2.path, mix := mix1 }
  | _, _ => none

/-- One invocation of `BiDijkstra.solve` up to its tail recursion. The
`if not current_node` guard at line 79 is dead code (`min` would already have
raised on an empty list) and is subsumed by the `none` case of the scan. -/
def biStep (inp : PFInput) (s : BState) : StepRes BState :=
  match get_smallest_g_cost_unvisited_node inp s.g s.unvisited_pos with
  | none => .done none
  | some cur =>
    if s.g cur = ⊤ then .done (some s)
    else
      match s.g cur with
      | ⊤ => .done none  -- unreachable: excluded by the guard above
      | (gc : ℕ) =>
        let s1 := biMeetRelax gc (s.parent cur) (get_neighbours inp cur) s
        let s2 := { s1 with mix := fun q => if q = cur then some ((gc : ℕ) : ℚ) else s1.mix q }
        match s2.middle_node with
        | some m =>
          match biFinish inp { s2 with visited_pos := s2.visited_pos ++ [cur] } m with
          | none => .done none
          | some st => .done (some st)
        | none =>
          let s3 := { s2 with
            unvisited_pos := s2.unvisited_pos.erase cur
            visited_pos := s2.visited_pos ++ [cur] }
          if s3.unvisited_pos.Nonempty then .cont s3 else .done (some s3)

def biLoop (inp : PFInput) : ℕ → BState → Option BState
  | 0, _ => none
  | fuel + 1, s =>
    match biStep inp s with
    | .done r => r
    | .cont s1 => biLoop inp fuel s1

def bidijkstraSolve (inp : PFInput) : Option BState :=
  biLoop inp (dijkstraFuel inp) (biInit inp)

/-! ## Specification-side notions

These definitions come from the claims' vocabulary (valid paths, shortest
length, reachability), not from the source; they are only compared against
the solvers' outputs. -/

/-- A sequence of positions each step of which moves to a `get_neighbours`
neighbour (in bounds, orthogonally adjacent, not a wall). -/
def IsPathSeq (inp : PFInput) : List Pos → Prop
  | [] => True
  | [_] => True
  | p :: q :: rest => q ∈ get_neighbours inp p ∧ IsPathSeq inp (q :: rest)

instance IsPathSeq.dec (inp : PFInput) : (l : List Pos) → Decidable (IsPathSeq inp l)
  | [] => inferInstanceAs (Decidable True)
  | [_] => inferInstanceAs (Decidable True)
  | p :: q :: rest =>
    haveI : Decidable (IsPathSeq inp (q :: rest)) := IsPathSeq.dec inp (q :: rest)
    inferInstanceAs (Decidable (q ∈ get_neighbours inp p ∧ IsPathSeq inp (q :: rest)))

/-- One step of the reachability closure: a set of positions together with
all their non-wall in-bounds neighbours. -/
def reachStep (inp : PFInput) (A : Finset Pos) : Finset Pos :=
  A ∪ A.biUnion (fun p => (get_neighbours inp p).toFinset)

/-- The positions reachable from the start by neighbour steps: the closure is
attained after at most one expansion per grid cell. -/
def reachSet (inp : PFInput) : Finset Pos :=
  (reachStep inp)^[inp.row_amount * inp.column_amount]
    (if inp.start_pos ∈ gridPositions inp then {inp.start_pos} else ∅)

/-! ## Basic lemmas about the grid scans -/

theorem foldlMin_mem (key : Pos → WithTop ℕ) :
    ∀ (l : List Pos) (b : Pos),
      l.foldl (fun b q => if key q < key b then q else b) b ∈ b :: l := by
  intro l
  induction l with
  | nil => intro b; simp
  | cons q l ih =>
    intro b
    simp only [List.foldl_cons]
    by_cases hq : key q < key b
    · rw [if_pos hq]
      rcases List.mem_cons.mp (ih q) with h | h
      · simp [h]
      · simp [h]
    · rw [if_neg hq]
      rcases List.mem_cons.mp (ih b) with h | h
      · simp [h]
      · simp [h]

theorem foldlMin_le (key : Pos → WithTop ℕ) :
    ∀ (l : List Pos) (b : Pos),
      key (l.foldl (fun b q => if key q < key b then q else b) b) ≤ key b ∧
      ∀ y ∈ l, key (l.foldl (fun b q => if key q < key b then q else b) b) ≤ key y := by
  intro l
  induction l with
  | nil => intro b; simp
  | cons q l ih =>
    intro b
    simp only [List.foldl_cons]
    by_cases hq : key q < key b
    · rw [if_pos hq]
      rcases ih q with ⟨h1, h2⟩
      refine ⟨le_trans h1 (le_of_lt hq), ?_⟩
      intro y hy
      rcases List.mem_cons.mp hy with rfl | hy
      · exact h1
      · exact h2 y hy
    · rw [if_neg hq]
      rcases ih b with ⟨h1, h2⟩
      refine ⟨h1, ?_⟩
      intro y hy
      rcases List.mem_cons.mp hy with rfl | hy
      · exact le_trans h1 (le_of_not_lt hq)
      · exact h2 y hy

theorem firstMinBy_mem {key : Pos → WithTop ℕ} {l : List Pos} {x : Pos}
    (h : firstMinBy key l = some x) : x ∈ l := by
  cases l with
  | nil => simp [firstMinBy] at h
  | cons p ps =>
    simp only [firstMinBy, Option.some.injEq] at h
    subst h
    exact foldlMin_mem key ps p

theorem firstMinBy_le {key : Pos → WithTop ℕ} {l : List Pos} {x : Pos}
    (h : firstMinBy key l = some x) : ∀ y ∈ l, key x ≤ key y := by
  cases l with
  | nil => simp [firstMinBy] at h
  | cons p ps =>
    simp only [firstMinBy, Option.some.injEq] at h
    subst h
    intro y hy
    rcases List.mem_cons.mp hy with rfl | hy
    · exact (foldlMin_le key ps y).1
    · exact (foldlMin_le key ps p).2 y hy

theorem firstMinBy_isSome {key : Pos → WithTop ℕ} {l : List Pos} (h : l ≠ []) :
    ∃ x, firstMinBy key l = some x := by
  cases l with
  | nil => exact absurd rfl h
  | cons p ps => exact ⟨_, rfl⟩

theorem mem_rowMajor {rows cols : ℕ} {p : Pos} :
    p ∈ rowMajor rows cols ↔
      0 ≤ p.1 ∧ p.1 < (rows : ℤ) ∧ 0 ≤ p.2 ∧ p.2 < (cols : ℤ) := by
  rcases p with ⟨x, y⟩
  simp only [rowMajor, List.mem_flatMap, List.mem_map, List.mem_range, Prod.mk.injEq]
  constructor
  · rintro ⟨i, hi, j, hj, hx, hy⟩
    subst hx
    subst hy
    exact ⟨Int.ofNat_nonneg i, by exact_mod_cast hi, Int.ofNat_nonneg j, by exact_mod_cast hj⟩
  · rintro ⟨hx0, hxr, hy0, hyc⟩
    refine ⟨x.toNat, by omega, y.toNat, by omega, ?_, ?_⟩
    · simp [Int.toNat_of_nonneg hx0]
    · simp [Int.toNat_of_nonneg hy0]

theorem rowMajor_nodup (rows cols : ℕ) : (rowMajor rows cols).Nodup := by
  rw [rowMajor, List.nodup_flatMap]
  constructor
  · intro i _
    refine List.Nodup.map ?_ (List.nodup_range cols)
    intro a b hab
    simpa using congrArg Prod.snd hab
  · refine (List.nodup_range rows).imp ?_
    intro i j hij
    rw [Function.onFun, List.disjoint_left]
    rintro z hz1 hz2
    simp only [List.mem_map] at hz1 hz2
    rcases hz1 with ⟨a, _, ha⟩
    rcases hz2 with ⟨b, _, hb⟩
    apply hij
    have h := ha.trans hb.symm
    simpa using (congrArg Prod.fst h)

theorem mem_gridPositions {inp : PFInput} {p : Pos} :
    p ∈ gridPositions inp ↔
      0 ≤ p.1 ∧ p.1 < (inp.row_amount : ℤ) ∧ 0 ≤ p.2 ∧ p.2 < (inp.column_amount : ℤ) := by
  rw [gridPositions, List.mem_toFinset, mem_rowMajor]

theorem mem_neighbourCandidates {inp : PFInput} {p q : Pos} :
    q ∈ neighbourCandidates inp p ↔
      (q = (p.1 + 1, p.2) ∨ q = (p.1 + -1, p.2) ∨ q = (p.1, p.2 + 1) ∨ q = (p.1, p.2 + -1)) ∧
      (0 ≤ q.1 ∧ q.1 < (inp.row_amount : ℤ) ∧ 0 ≤ q.2 ∧ q.2 < (inp.column_amount : ℤ) ∧
        q ∉ inp.wall_pos) := by
  simp only [neighbourCandidates, neighbourOffsets, List.mem_filter, List.mem_map,
    decide_eq_true_eq, List.mem_cons, List.not_mem_nil, or_false]
  constructor
  · rintro ⟨⟨o, ho, rfl⟩, hconds⟩
    refine ⟨?_, hconds⟩
    rcases ho with rfl | rfl | rfl | rfl
    · left; simp
    · right; left; simp
    · right; right; left; simp
    · right; right; right; simp
  · rintro ⟨ho, hconds⟩
    refine ⟨?_, hconds⟩
    rcases ho with rfl | rfl | rfl | rfl
    · exact ⟨(1, 0), Or.inl rfl, by simp⟩
    · exact ⟨(-1, 0), Or.inr (Or.inl rfl), by simp⟩
    · exact ⟨(0, 1), Or.inr (Or.inr (Or.inl rfl)), by simp⟩
    · exact ⟨(0, -1), Or.inr (Or.inr (Or.inr rfl)), by simp⟩

theorem mem_get_neighbours {inp : PFInput} {p q : Pos} :
    q ∈ get_neighbours inp p ↔ q ∈ neighbourCandidates inp p := by
  simp only [get_neighbours, List.mem_filter, decide_eq_true_eq, and_iff_right_iff_imp]
  intro hq
  rcases mem_neighbourCandidates.mp hq with ⟨_, h1, h2, h3, h4, _⟩
  exact mem_rowMajor.mpr ⟨h1, h2, h3, h4⟩

theorem get_neighbours_mem_grid {inp : PFInput} {p q : Pos}
    (h : q ∈ get_neighbours inp p) : q ∈ gridPositions inp := by
  rcases mem_neighbourCandidates.mp (mem_get_neighbours.mp h) with ⟨_, h1, h2, h3, h4, _⟩
  exact mem_gridPositions.mpr ⟨h1, h2, h3, h4⟩

theorem get_neighbours_not_wall {inp : PFInput} {p q : Pos}
    (h : q ∈ get_neighbours inp p) : q ∉ inp.wall_pos :=
  (mem_neighbourCandidates.mp (mem_get_neighbours.mp h)).2.2.2.2.2

theorem manh_get_neighbours {inp : PFInput} {p q : Pos}
    (h : q ∈ get_neighbours inp p) : manh p q = 1 := by
  rcases (mem_neighbourCandidates.mp (mem_get_neighbours.mp h)).1 with rfl | rfl | rfl | rfl <;>
    · simp only [manh]
      omega

theorem manh_triangle (p q r : Pos) : manh p r ≤ manh p q + manh q r := by
  simp only [manh]
  omega

/-- Any neighbour-stepping sequence from `a` to `b` has at least
`manh a b + 1` entries: every step changes the Manhattan distance to the
target by at most one. -/
theorem IsPathSeq.length_lower_bound {inp : PFInput} :
    ∀ (l : List Pos) (a b : Pos), IsPathSeq inp l → l.head? = some a →
      l.getLast? = some b → manh a b + 1 ≤ l.length := by
  intro l
  induction l with
  | nil => intro a b _ hh _; simp at hh
  | cons x t ih =>
    intro a b hps hh hl
    simp only [List.head?_cons, Option.some.injEq] at hh
    subst hh
    cases t with
    | nil =>
      simp only [List.getLast?_singleton, Option.some.injEq] at hl
      subst hl
      simp [manh]
    | cons y rest =>
      obtain ⟨hadj, hps2⟩ : y ∈ get_neighbours inp x ∧ IsPathSeq inp (y :: rest) := hps
      have hl2 : (y :: rest).getLast? = some b := by
        rwa [List.getLast?_cons_cons] at hl
      have ih2 := ih y b hps2 List.head?_cons hl2
      have hstep : manh x b ≤ manh x y + manh y b := manh_triangle x y b
      have hone : manh x y = 1 := manh_get_neighbours hadj
      simp only [List.length_cons] at ih2 ⊢
      omega

/-! ## Branch analysis of the solver steps -/

theorem dijkstraFinish_not_cont (inp : PFInput) (s st : DState) :
    dijkstraFinish inp s ≠ .cont st := by
  unfold dijkstraFinish
  intro h
  split at h
  · cases h
  · split at h <;> cases h

theorem dijkstraFinish_done (inp : PFInput) {s st : DState}
    (h : dijkstraFinish inp s = .done (some st)) :
    ∃ mix1 p, normalizeMix s.mix (endNodeG inp s.g) = some mix1 ∧
      backtrack_path inp s.g (backtrackFuel inp) s.path inp.end_pos = some p ∧
      st = { s with mix := mix1, path := p } := by
  unfold dijkstraFinish at h
  split at h
  · cases h
  · rename_i mix1 hmix
    split at h
    · cases h
    · rename_i p hbt
      simp only [StepRes.done.injEq, Option.some.injEq] at h
      exact ⟨mix1, p, hmix, hbt, h.symm⟩

theorem dijkstraRelaxFold_frame (gc : ℕ) (l : List Pos) (s : DState) :
    (l.foldl (dijkstraRelax gc) s).unvisited_pos = s.unvisited_pos ∧
    (l.foldl (dijkstraRelax gc) s).visited_pos = s.visited_pos ∧
    (l.foldl (dijkstraRelax gc) s).path = s.path := by
  induction l generalizing s with
  | nil => exact ⟨rfl, rfl, rfl⟩
  | cons n l ih =>
    simp only [List.foldl_cons]
    rcases ih (dijkstraRelax gc s n) with ⟨h1, h2, h3⟩
    refine ⟨h1.trans ?_, h2.trans ?_, h3.trans ?_⟩ <;>
      · unfold dijkstraRelax
        split <;> rfl

theorem dijkstraStep_cont (inp : PFInput) {s st : DState}
    (h : dijkstraStep inp s = .cont st) :
    ∃ cur, cur ∈ s.unvisited_pos ∧ st.unvisited_pos = s.unvisited_pos.erase cur ∧
      st.path = s.path := by
  unfold dijkstraStep at h
  split at h
  · cases h
  · rename_i cur hsel
    split at h
    · cases h
    · rename_i hcur
      split at h
      · cases h
      · rename_i hgc
        dsimp only at h
        split at h
        · exact absurd h (dijkstraFinish_not_cont _ _ _)
        · split at h
          · cases h
          · split at h
            · exact absurd h (dijkstraFinish_not_cont _ _ _)
            · split at h
              · cases h
              · cases h
                rcases dijkstraRelaxFold_frame ((s.g cur).untop hgc)
                  (get_neighbours inp cur) s with ⟨h1, _, h3⟩
                refine ⟨cur, not_not.mp hcur, ?_, ?_⟩
                · simp [h1]
                · simp [h3]

theorem backtrack_path_spec (inp : PFInput) (g : Pos → WithTop ℕ) :
    ∀ (fuel : ℕ) (path0 : List Pos) (cur : Pos) (p : List Pos),
      inp.start_pos ∉ path0 →
      backtrack_path inp g fuel path0 cur = some p →
      p ≠ [] ∧ p.head? = some inp.start_pos ∧ p.getLast? = (cur :: path0).getLast? := by
  intro fuel
  induction fuel with
  | zero => intro path0 cur p _ h; cases h
  | succ fuel ih =>
    intro path0 cur p hs h
    unfold backtrack_path at h
    dsimp only at h
    split at h
    · cases h
    · rename_i sm hsm
      split at h
      · rename_i hmem
        simp only [Option.some.injEq] at h
        subst h
        rcases List.mem_cons.mp hmem with rfl | hmem
        · exact ⟨List.cons_ne_nil _ _, rfl, rfl⟩
        · exact absurd hmem hs
      · rename_i hmem
        rcases ih (cur :: path0) sm p hmem h with ⟨h1, h2, h3⟩
        exact ⟨h1, h2, h3.trans List.getLast?_cons_cons⟩

theorem astar_backtrack_path_spec (inp : PFInput) (g : Pos → WithTop ℕ) (visited : List Pos) :
    ∀ (fuel : ℕ) (path0 : List Pos) (cur : Pos) (p : List Pos),
      inp.start_pos ∉ path0 →
      astar_backtrack_path inp g visited fuel path0 cur = some p →
      p ≠ [] ∧ p.head? = some inp.start_pos ∧ p.getLast? = (cur :: path0).getLast? := by
  intro fuel
  induction fuel with
  | zero => intro path0 cur p _ h; cases h
  | succ fuel ih =>
    intro path0 cur p hs h
    unfold astar_backtrack_path at h
    dsimp only at h
    split at h
    · cases h
    · rename_i sm hsm
      split at h
      · rename_i hmem
        simp only [Option.some.injEq] at h
        subst h
        rcases List.mem_cons.mp hmem with rfl | hmem
        · exact ⟨List.cons_ne_nil _ _, rfl, rfl⟩
        · exact absurd hmem hs
      · rename_i hmem
        rcases ih (cur :: path0) sm p hmem h with ⟨h1, h2, h3⟩
        exact ⟨h1, h2, h3.trans List.getLast?_cons_cons⟩

theorem dijkstraStep_done (inp : PFInput) {s st : DState} (hp : s.path = [])
    (h : dijkstraStep inp s = .done (some st)) :
    st.path = [] ∨
      (st.path ≠ [] ∧ st.path.head? = some inp.start_pos ∧
        st.path.getLast? = some inp.end_pos) := by
  unfold dijkstraStep at h
  split at h
  · cases h
  · rename_i cur hsel
    split at h
    · left
      simp only [StepRes.done.injEq, Option.some.injEq] at h
      rw [← h]
      exact hp
    · split at h
      · left
        simp only [StepRes.done.injEq, Option.some.injEq] at h
        rw [← h]
        exact hp
      · rename_i hgc
        dsimp only at h
        have hfin : ∀ s2 : DState, s2.path = [] → dijkstraFinish inp s2 = .done (some st) →
            st.path = [] ∨ (st.path ≠ [] ∧ st.path.head? = some inp.start_pos ∧
              st.path.getLast? = some inp.end_pos) := by
          intro s2 hp2 hfin
          rcases dijkstraFinish_done inp hfin with ⟨mix1, p, _, hbt, hst⟩
          rw [hp2] at hbt
          rcases backtrack_path_spec inp s2.g (backtrackFuel inp) [] inp.end_pos p
            (List.not_mem_nil _) hbt with ⟨h1, h2, h3⟩
          right
          subst hst
          exact ⟨h1, h2, h3⟩
        have hframe := dijkstraRelaxFold_frame ((s.g cur).untop hgc) (get_neighbours inp cur) s
        split at h
        · exact hfin _ (by simp [hframe.2.2, hp]) h
        · split at h
          · cases h
          · split at h
            · exact hfin _ (by simp [hframe.2.2, hp]) h
            · split at h
              · cases h
              · cases h

theorem astarFinish_not_cont (inp : PFInput) (s st : AState) :
    astarFinish inp s ≠ .cont st := by
  unfold astarFinish
  intro h
  split at h
  · cases h
  · split at h <;> cases h

theorem astarFinish_done (inp : PFInput) {s st : AState}
    (h : astarFinish inp s = .done (some st)) :
    ∃ mix1 p, normalizeMix s.mix (astarEndNodeG inp s) = some mix1 ∧
      astar_backtrack_path inp s.g s.visited_pos (backtrackFuel inp) s.path inp.end_pos
        = some p ∧
      st = { s with mix := mix1, path := p } := by
  unfold astarFinish at h
  split at h
  · cases h
  · rename_i mix1 hmix
    split at h
    · cases h
    · rename_i p hbt
      simp only [StepRes.done.injEq, Option.some.injEq] at h
      exact ⟨mix1, p, hmix, hbt, h.symm⟩

theorem astarRelaxFold_frame (inp : PFInput) (gc : ℕ) (l : List Pos) (s : AState) :
    (l.foldl (astarRelax inp gc) s).unvisited_pos = s.unvisited_pos ∧
    (l.foldl (astarRelax inp gc) s).visited_pos = s.visited_pos ∧
    (l.foldl (astarRelax inp gc) s).path = s.path := by
  induction l generalizing s with
  | nil => exact ⟨rfl, rfl, rfl⟩
  | cons n l ih =>
    simp only [List.foldl_cons]
    rcases ih (astarRelax inp gc s n) with ⟨h1, h2, h3⟩
    refine ⟨h1.trans ?_, h2.trans ?_, h3.trans ?_⟩ <;>
      · unfold astarRelax
        split <;> rfl

theorem astarChosen_mem {inp : PFInput} {s : AState} {cur : Pos}
    (h : astarChosen inp s = some cur) : cur ∈ s.unvisited_pos := by
  unfold astarChosen at h
  split at h
  · cases h
  · rename_i c k hck
    unfold get_smallest_f_cost_unvisited_node at hck
    split at h
    · unfold get_smallest_h_cost_unvisited_node at h
      have := firstMinBy_mem h
      simp only [List.mem_filter, decide_eq_true_eq] at this
      exact this.2
    · simp only [Option.some.injEq] at h
      subst h
      split at hck
      · cases hck
      · rename_i c0 hc0
        simp only [Option.some.injEq, Prod.mk.injEq] at hck
        have := firstMinBy_mem hc0
        simp only [List.mem_filter, decide_eq_true_eq] at this
        rw [← hck.1]
        exact this.2

theorem astarStep_cont (inp : PFInput) {s st : AState}
    (h : astarStep inp s = .cont st) :
    ∃ cur, cur ∈ s.unvisited_pos ∧ st.unvisited_pos = s.unvisited_pos.erase cur ∧
      st.path = s.path := by
  unfold astarStep at h
  split at h
  · cases h
  · rename_i cur hsel
    split at h
    · cases h
    · dsimp only at h
      split at h
      · cases h
      · rename_i gc hgc
        have hframe := astarRelaxFold_frame inp gc (get_neighbours inp cur)
          { s with
            h := fun q => if q = cur then ((manh cur inp.end_pos : ℕ) : WithTop ℕ) else s.h q
            unvisited_pos := s.unvisited_pos.erase cur
            visited_pos := s.visited_pos ++ [cur] }
        split at h
        · cases h
        · split at h
          · cases h
          · split at h
            · exact absurd h (astarFinish_not_cont _ _ _)
            · split at h
              · cases h
              · split at h
                · exact absurd h (astarFinish_not_cont _ _ _)
                · cases h
                  exact ⟨cur, astarChosen_mem hsel, by simp [hframe.1], by simp [hframe.2.2]⟩

theorem astarStep_done (inp : PFInput) {s st : AState} (hp : s.path = [])
    (h : astarStep inp s = .done (some st)) :
    st.path = [] ∨
      (st.path ≠ [] ∧ st.path.head? = some inp.start_pos ∧
        st.path.getLast? = some inp.end_pos) := by
  unfold astarStep at h
  split at h
  · cases h
  · rename_i cur hsel
    split at h
    · left
      simp only [StepRes.done.injEq, Option.some.injEq] at h
      rw [← h]
      exact hp
    · dsimp only at h
      split at h
      · cases h
      · rename_i gc hgc
        have hframe := astarRelaxFold_frame inp gc (get_neighbours inp cur)
          { s with
            h := fun q => if q = cur then ((manh cur inp.end_pos : ℕ) : WithTop ℕ) else s.h q
            unvisited_pos := s.unvisited_pos.erase cur
            visited_pos := s.visited_pos ++ [cur] }
        have hfin : ∀ s3 : AState, s3.path = [] → astarFinish inp s3 = .done (some st) →
            st.path = [] ∨ (st.path ≠ [] ∧ st.path.head? = some inp.start_pos ∧
              st.path.getLast? = some inp.end_pos) := by
          intro s3 hp3 hfin
          rcases astarFinish_done inp hfin with ⟨mix1, p, _, hbt, hst⟩
          rw [hp3] at hbt
          rcases astar_backtrack_path_spec inp s3.g s3.visited_pos (backtrackFuel inp) []
            inp.end_pos p (List.not_mem_nil _) hbt with ⟨h1, h2, h3⟩
          right
          subst hst
          exact ⟨h1, h2, h3⟩
        split at h
        · cases h
        · split at h
          · cases h
          · split at h
            · refine hfin _ ?_ h
              exact hframe.2.2.trans hp
            · split at h
              · cases h
              · split at h
                · refine hfin _ ?_ h
                  exact hframe.2.2.trans hp
                · cases h

theorem get_smallest_mem {inp : PFInput} {g : Pos → WithTop ℕ} {unv : Finset Pos} {cur : Pos}
    (h : get_smallest_g_cost_unvisited_node inp g unv = some cur) : cur ∈ unv := by
  have := firstMinBy_mem h
  simp only [List.mem_filter, decide_eq_true_eq] at this
  exact this.2

theorem get_smallest_le {inp : PFInput} {g : Pos → WithTop ℕ} {unv : Finset Pos} {cur : Pos}
    (h : get_smallest_g_cost_unvisited_node inp g unv = some cur) :
    ∀ q ∈ unv, q ∈ gridPositions inp → g cur ≤ g q := by
  intro q hq hqg
  refine firstMinBy_le h q ?_
  simp only [List.mem_filter, decide_eq_true_eq]
  exact ⟨(List.mem_toFinset).mp hqg, hq⟩

theorem get_smallest_isSome {inp : PFInput} {g : Pos → WithTop ℕ} {unv : Finset Pos} {q : Pos}
    (hq : q ∈ unv) (hqg : q ∈ gridPositions inp) :
    ∃ cur, get_smallest_g_cost_unvisited_node inp g unv = some cur := by
  apply firstMinBy_isSome
  intro hnil
  have : q ∈ (rowMajor inp.row_amount inp.column_amount).filter
      (fun q => decide (q ∈ unv)) := by
    simp only [List.mem_filter, decide_eq_true_eq]
    exact ⟨(List.mem_toFinset).mp hqg, hq⟩
  rw [hnil] at this
  cases this

theorem biMeetRelax_frame (gc : ℕ) (curP : Option Side) :
    ∀ (l : List Pos) (s : BState),
      (biMeetRelax gc curP l s).unvisited_pos = s.unvisited_pos ∧
      (biMeetRelax gc curP l s).path = s.path := by
  intro l
  induction l with
  | nil => intro s; exact ⟨rfl, rfl⟩
  | cons n l ih =>
    intro s
    unfold biMeetRelax
    split
    · exact ⟨rfl, rfl⟩
    · dsimp only
      split
      · exact ih s
      · exact ih _

theorem biStep_cont (inp : PFInput) {s st : BState}
    (h : biStep inp s = .cont st) :
    ∃ cur, cur ∈ s.unvisited_pos ∧ st.unvisited_pos = s.unvisited_pos.erase cur ∧
      st.path = s.path := by
  unfold biStep at h
  split at h
  · cases h
  · rename_i cur hsel
    split at h
    · cases h
    · split at h
      · cases h
      · rename_i gc hgc
        dsimp only at h
        have hframe := biMeetRelax_frame gc (s.parent cur) (get_neighbours inp cur) s
        split at h
        · split at h <;> cases h
        · split at h
          · cases h
            exact ⟨cur, get_smallest_mem hsel, by simp [hframe.1], by simp [hframe.2]⟩
          · cases h

/-- The state reached after exactly `n` continuing iterations of a solver
step function (`none` once the solve has left its expansion loop). -/
def stepsOf {σ : Type} (step : σ → StepRes σ) : ℕ → σ → Option σ
  | 0, s => some s
  | n + 1, s =>
    match step s with
    | .cont s1 => stepsOf step n s1
    | .done _ => none

theorem stepsOf_subset {σ : Type} (unv : σ → Finset Pos) (step : σ → StepRes σ)
    (hstep : ∀ s s1, step s = .cont s1 → unv s1 ⊆ unv s) :
    ∀ (n : ℕ) (s s1 : σ), stepsOf step n s = some s1 → unv s1 ⊆ unv s := by
  intro n
  induction n with
  | zero =>
    intro s s1 h
    simp only [stepsOf, Option.some.injEq] at h
    subst h
    exact Finset.Subset.refl _
  | succ n ih =>
    intro s s1 h
    unfold stepsOf at h
    split at h
    · rename_i s2 hs2
      exact (ih s2 s1 h).trans (hstep s s2 hs2)
    · cases h

theorem stepsOf_add {σ : Type} (step : σ → StepRes σ) :
    ∀ (n k : ℕ) (s : σ),
      stepsOf step (n + k) s = (stepsOf step n s).bind (stepsOf step k) := by
  intro n
  induction n with
  | zero => intro k s; simp [stepsOf]
  | succ n ih =>
    intro k s
    have harr : n + 1 + k = (n + k) + 1 := by omega
    rw [harr]
    cases hstep : step s with
    | done r => simp [stepsOf, hstep]
    | cont s1 =>
      simp only [stepsOf, hstep]
      exact ih k s1

theorem dijkstraLoop_path (inp : PFInput) :
    ∀ (fuel : ℕ) (s st : DState), s.path = [] → dijkstraLoop inp fuel s = some st →
      st.path = [] ∨
        (st.path ≠ [] ∧ st.path.head? = some inp.start_pos ∧
          st.path.getLast? = some inp.end_pos) := by
  intro fuel
  induction fuel with
  | zero => intro s st _ h; cases h
  | succ fuel ih =>
    intro s st hp h
    unfold dijkstraLoop at h
    split at h
    · rename_i r hstep
      cases h
      exact dijkstraStep_done inp hp hstep
    · rename_i s1 hstep
      rcases dijkstraStep_cont inp hstep with ⟨cur, _, _, hpath⟩
      exact ih s1 st (hpath.trans hp) h

theorem astarLoop_path (inp : PFInput) :
    ∀ (fuel : ℕ) (s st : AState), s.path = [] → astarLoop inp fuel s = some st →
      st.path = [] ∨
        (st.path ≠ [] ∧ st.path.head? = some inp.start_pos ∧
          st.path.getLast? = some inp.end_pos) := by
  intro fuel
  induction fuel with
  | zero => intro s st _ h; cases h
  | succ fuel ih =>
    intro s st hp h
    unfold astarLoop at h
    split at h
    · rename_i r hstep
      cases h
      exact astarStep_done inp hp hstep
    · rename_i s1 hstep
      rcases astarStep_cont inp hstep with ⟨cur, _, _, hpath⟩
      exact ih s1 st (hpath.trans hp) h

/-! ## Claim theorems -/

/-- Open 1×4 corridor from `(0,0)` to `(0,2)`: all three solvers succeed. -/
def inputOpen14 : PFInput :=
  { start_pos := (0, 0), end_pos := (0, 2), row_amount := 1, column_amount := 4,
    wall_pos := ∅ }

/-- Degenerate input with `start_pos = end_pos` on a 2×2 grid. -/
def inputDegenerate : PFInput :=
  { start_pos := (0, 0), end_pos := (0, 0), row_amount := 2, column_amount := 2,
    wall_pos := ∅ }

/-- Open 1×2 grid solved corner to corner. -/
def inputCorner12 : PFInput :=
  { start_pos := (0, 0), end_pos := (0, 1), row_amount := 1, column_amount := 2,
    wall_pos := ∅ }

/-- 1×4 corridor with a wall behind the end: the bidirectional meeting leaves
the middle→end sub-solve to exhaust its frontier. -/
def inputMeetCut : PFInput :=
  { start_pos := (0, 0), end_pos := (0, 2), row_amount := 1, column_amount := 4,
    wall_pos := {(0, 3)} }

/-- 2×2 grid whose end position sits on a wall. -/
def inputWallEnd : PFInput :=
  { start_pos := (0, 0), end_pos := (1, 1), row_amount := 2, column_amount := 2,
    wall_pos := {(1, 1)} }

/-- 3×3 grid with the end cell fully enclosed by walls. -/
def inputEnclosed : PFInput :=
  { start_pos := (0, 0), end_pos := (2, 2), row_amount := 3, column_amount := 3,
    wall_pos := {(1, 2), (2, 1)} }

/-- C1: the claim as stated is false: on the open 1×4 corridor from `(0,0)`
to `(0,2)` the bidirectional path has 4 entries while Dijkstra's has 3, so
the three lengths are not all equal. -/
theorem claim_C1_counterexample :
    (bidijkstraSolve inputOpen14).map (fun st => st.path.length) ≠
      (dijkstraSolve inputOpen14).map (fun st => st.path.length) := by decide

/-- C1 (amended): on the open 1×4 corridor, Dijkstra and A* both return the
same 3-entry path, which is a valid neighbour sequence of the least possible
length (any valid start→end sequence has at least `manh + 1 = 3` entries),
while the bidirectional solver returns the concatenation of its two sub-paths
with the meeting node `(0,1)` duplicated — one entry longer than a shortest
path. -/
theorem claim_C1_theorem :
    (dijkstraSolve inputOpen14).map (fun st => st.path) = some [(0, 0), (0, 1), (0, 2)] ∧
    (astarSolve inputOpen14).map (fun st => st.path) = some [(0, 0), (0, 1), (0, 2)] ∧
    (bidijkstraSolve inputOpen14).map (fun st => st.path) =
      some [(0, 0), (0, 1), (0, 1), (0, 2)] ∧
    IsPathSeq inputOpen14 [(0, 0), (0, 1), (0, 2)] ∧
    (∀ l : List Pos, IsPathSeq inputOpen14 l → l.head? = some inputOpen14.start_pos →
      l.getLast? = some inputOpen14.end_pos → 3 ≤ l.length) := by
  refine ⟨by decide, by decide, by decide, by decide, ?_⟩
  intro l hl hh hle
  have hlb := IsPathSeq.length_lower_bound l _ _ hl hh hle
  have hm : manh inputOpen14.start_pos inputOpen14.end_pos = 2 := by decide
  rw [hm] at hlb
  omega

/-- C1 witness: the minimality clause applied to the 3-entry path itself. -/
theorem claim_C1_witness :
    IsPathSeq inputOpen14 [(0, 0), (0, 1), (0, 2)] ∧
    ([(0, 0), (0, 1), (0, 2)] : List Pos).head? = some inputOpen14.start_pos ∧
    ([(0, 0), (0, 1), (0, 2)] : List Pos).getLast? = some inputOpen14.end_pos ∧
    3 ≤ ([(0, 0), (0, 1), (0, 2)] : List Pos).length := by
  refine ⟨by decide, by decide, by decide, ?_⟩
  exact claim_C1_theorem.2.2.2.2 _ (by decide) (by decide) (by decide)

/-- C3: the claim as stated is false: with the end position on a wall (an
input the claim says must be rejected at construction with `InvalidInput`),
construction succeeds — the start node's cost is initialised to `0` with the
whole grid unvisited — and `solve` then runs three full expansion steps and
terminates normally with an empty path. -/
theorem claim_C3_counterexample :
    (dijkstraInit inputWallEnd).g inputWallEnd.start_pos = 0 ∧
    (dijkstraInit inputWallEnd).unvisited_pos = gridPositions inputWallEnd ∧
    inputWallEnd.end_pos ∈ inputWallEnd.wall_pos ∧
    (dijkstraSolve inputWallEnd).map (fun st => (st.path, st.visited_pos)) =
      some ([], [(0, 0), (0, 1), (1, 0)]) := by
  refine ⟨by decide, rfl, by decide, by decide⟩

/-- C3 (amended): construction never fails, for any input whatsoever: none
of the three constructors contains a validity check, every one returns an
initialised state (start cost `0`, all grid positions unvisited, empty path);
out-of-range or wall-coinciding start/end values flow into `solve`
unchecked. -/
theorem claim_C3_theorem (inp : PFInput) :
    (dijkstraInit inp).g inp.start_pos = 0 ∧
    (dijkstraInit inp).unvisited_pos = gridPositions inp ∧
    (dijkstraInit inp).path = [] ∧
    (astarInit inp).g inp.start_pos = 0 ∧
    (astarInit inp).unvisited_pos = gridPositions inp ∧
    (astarInit inp).path = [] ∧
    (biInit inp).g inp.start_pos = 0 ∧
    (biInit inp).g inp.end_pos = 0 ∧
    (biInit inp).unvisited_pos = gridPositions inp ∧
    (biInit inp).path = [] := by
  refine ⟨by simp [dijkstraInit], rfl, rfl, by simp [astarInit], rfl, rfl,
    by simp [biInit], by simp [biInit], rfl, rfl⟩

/-- C4: at `start_pos = end_pos = (0,0)` on the open 2×2 grid, the
bidirectional solver terminates with an *empty* path (both tags collapse to
`end`, so no meeting ever happens), while Dijkstra and A* abort in the ratio
normalisation, dividing by the end node's `g_cost` of `0`
(`ZeroDivisionError`) — none of the three returns `[start]`. -/
theorem claim_C4_theorem :
    (bidijkstraSolve inputDegenerate).map (fun st => st.path) = some [] ∧
    dijkstraSolve inputDegenerate = none ∧
    astarSolve inputDegenerate = none :=
  ⟨by decide, rfl, rfl⟩

/-- C5: the claim as stated is false: on the open 1×4 corridor from `(0,0)`
to `(0,2)`, the returned cost-ratio map sends `(0,3)` to `3/2`, outside
`[0,1]` — the cell is relaxed in the final iteration, after the end node has
been finalised with `g_cost = 2`, and records `3/2 > 1`. -/
theorem claim_C5_counterexample :
    (dijkstraSolve inputOpen14).map (fun st => st.mix (0, 3)) = some (some (mkRat 3 2)) ∧
    ¬ (mkRat 3 2 ≤ (1 : ℚ)) :=
  ⟨by decide, by decide⟩

/-- C7: the claim as stated is false: on the 1×4 corridor with a wall at
`(0,3)`, the solvers meet at `(0,1)` but the middle→end Dijkstra sub-solve
drains its frontier and returns an empty path, so the concatenated
bidirectional path is the non-empty `[(0,0), (0,1)]`, whose last element is
the meeting node rather than the end position `(0,2)`. -/
theorem claim_C7_counterexample :
    (bidijkstraSolve inputMeetCut).map (fun st => st.path) = some [(0, 0), (0, 1)] ∧
    ([(0, 0), (0, 1)] : List Pos).getLast? = some (0, 1) ∧
    ((0, 1) : Pos) ≠ inputMeetCut.end_pos :=
  ⟨by decide, by decide, by decide⟩

/-- C7 (amended): for the Dijkstra and A* solvers the endpoint invariant
holds on every input: whenever `solve` terminates normally with a non-empty
path, its first element is the start position and its last element is the
end position. (The bidirectional concatenation can violate it, per the
counterexample.) -/
theorem claim_C7_theorem (inp : PFInput) :
    (∀ st, dijkstraSolve inp = some st → st.path ≠ [] →
      st.path.head? = some inp.start_pos ∧ st.path.getLast? = some inp.end_pos) ∧
    (∀ st, astarSolve inp = some st → st.path ≠ [] →
      st.path.head? = some inp.start_pos ∧ st.path.getLast? = some inp.end_pos) := by
  constructor
  · intro st h hne
    rcases dijkstraLoop_path inp (dijkstraFuel inp) (dijkstraInit inp) st rfl h with h1 | h2
    · exact absurd h1 hne
    · exact ⟨h2.2.1, h2.2.2⟩
  · intro st h hne
    rcases astarLoop_path inp (dijkstraFuel inp) (astarInit inp) st rfl h with h1 | h2
    · exact absurd h1 hne
    · exact ⟨h2.2.1, h2.2.2⟩

/-- The state of the successful Dijkstra solve on the open 1×4 corridor. -/
def c7State : DState :=
  match dijkstraSolve inputOpen14 with
  | some st => st
  | none => dijkstraInit inputOpen14

/-- C7 witness: the endpoint invariant evaluated on the 1×4 corridor. -/
theorem claim_C7_witness :
    dijkstraSolve inputOpen14 = some c7State ∧ c7State.path ≠ [] ∧
    c7State.path.head? = some inputOpen14.start_pos ∧
    c7State.path.getLast? = some inputOpen14.end_pos := by
  have h1 : dijkstraSolve inputOpen14 = some c7State := rfl
  have h2 : c7State.path ≠ [] := by decide
  rcases (claim_C7_theorem inputOpen14).1 c7State h1 h2 with ⟨ha, hb⟩
  exact ⟨h1, h2, ha, hb⟩

/-- C8: the open-grid distance law fails by a crash: on the wall-free 1×2
grid from `(0,0)` to its neighbour `(0,1)` (Manhattan distance 1), removing
the end node empties the unvisited set and the immediately following
`get_smallest_g_cost_unvisited_node` call raises `ValueError` (`min` of an
empty sequence, dijkstra.py line 114); no path is returned at all. -/
theorem claim_C8_theorem :
    dijkstraSolve inputCorner12 = none ∧
    manh inputCorner12.start_pos inputCorner12.end_pos = 1 ∧
    inputCorner12.wall_pos = ∅ :=
  ⟨rfl, by decide, rfl⟩

/-- C10: each solver's expansion step removes exactly the selected position
from the unvisited set and adds nothing, so along any run the unvisited set
shrinks monotonically — in particular a position that has left the set never
re-enters it, i.e. it is removed at most once. -/
theorem claim_C10_theorem (inp : PFInput) :
    (∀ s st, dijkstraStep inp s = .cont st →
      (∃ cur ∈ s.unvisited_pos, st.unvisited_pos = s.unvisited_pos.erase cur) ∧
      st.unvisited_pos ⊆ s.unvisited_pos) ∧
    (∀ s st, astarStep inp s = .cont st →
      (∃ cur ∈ s.unvisited_pos, st.unvisited_pos = s.unvisited_pos.erase cur) ∧
      st.unvisited_pos ⊆ s.unvisited_pos) ∧
    (∀ s st, biStep inp s = .cont st →
      (∃ cur ∈ s.unvisited_pos, st.unvisited_pos = s.unvisited_pos.erase cur) ∧
      st.unvisited_pos ⊆ s.unvisited_pos) ∧
    (∀ n m s st st', n ≤ m →
      stepsOf (dijkstraStep inp) n s = some st →
      stepsOf (dijkstraStep inp) m s = some st' →
      st'.unvisited_pos ⊆ st.unvisited_pos) ∧
    (∀ n m s st st', n ≤ m →
      stepsOf (astarStep inp) n s = some st →
      stepsOf (astarStep inp) m s = some st' →
      st'.unvisited_pos ⊆ st.unvisited_pos) ∧
    (∀ n m s st st', n ≤ m →
      stepsOf (biStep inp) n s = some st →
      stepsOf (biStep inp) m s = some st' →
      st'.unvisited_pos ⊆ st.unvisited_pos) := by
  have hd : ∀ s st, dijkstraStep inp s = .cont st →
      (∃ cur ∈ s.unvisited_pos, st.unvisited_pos = s.unvisited_pos.erase cur) ∧
      st.unvisited_pos ⊆ s.unvisited_pos := by
    intro s st h
    rcases dijkstraStep_cont inp h with ⟨cur, hmem, herase, _⟩
    exact ⟨⟨cur, hmem, herase⟩, herase ▸ Finset.erase_subset _ _⟩
  have ha : ∀ s st, astarStep inp s = .cont st →
      (∃ cur ∈ s.unvisited_pos, st.unvisited_pos = s.unvisited_pos.erase cur) ∧
      st.unvisited_pos ⊆ s.unvisited_pos := by
    intro s st h
    rcases astarStep_cont inp h with ⟨cur, hmem, herase, _⟩
    exact ⟨⟨cur, hmem, herase⟩, herase ▸ Finset.erase_subset _ _⟩
  have hb : ∀ s st, biStep inp s = .cont st →
      (∃ cur ∈ s.unvisited_pos, st.unvisited_pos = s.unvisited_pos.erase cur) ∧
      st.unvisited_pos ⊆ s.unvisited_pos := by
    intro s st h
    rcases biStep_cont inp h with ⟨cur, hmem, herase, _⟩
    exact ⟨⟨cur, hmem, herase⟩, herase ▸ Finset.erase_subset _ _⟩
  have gen : ∀ {σ : Type} (unv : σ → Finset Pos) (step : σ → StepRes σ),
      (∀ s s1, step s = .cont s1 → unv s1 ⊆ unv s) →
      ∀ (n m : ℕ) (s st st' : σ), n ≤ m → stepsOf step n s = some st →
        stepsOf step m s = some st' → unv st' ⊆ unv st := by
    intro σ unv step hstep n m s st st' hnm hn hm
    obtain ⟨k, rfl⟩ := Nat.exists_eq_add_of_le hnm
    rw [stepsOf_add, hn, Option.some_bind] at hm
    exact stepsOf_subset unv step hstep k st st' hm
  exact ⟨hd, ha, hb,
    gen _ _ (fun s s1 h => (hd s s1 h).2),
    gen _ _ (fun s s1 h => (ha s s1 h).2),
    gen _ _ (fun s s1 h => (hb s s1 h).2)⟩

/-- The state after one Dijkstra expansion step on the open 1×4 corridor. -/
def c10State : DState :=
  match dijkstraStep inputOpen14 (dijkstraInit inputOpen14) with
  | .cont st => st
  | .done _ => dijkstraInit inputOpen14

/-- C10 witness: the first expansion step on the open 1×4 corridor removes
exactly the start cell from the unvisited set. -/
theorem claim_C10_witness :
    dijkstraStep inputOpen14 (dijkstraInit inputOpen14) = .cont c10State ∧
    c10State.unvisited_pos ⊆ (dijkstraInit inputOpen14).unvisited_pos := by
  have h1 : dijkstraStep inputOpen14 (dijkstraInit inputOpen14) = .cont c10State := rfl
  exact ⟨h1, ((claim_C10_theorem inputOpen14).1 _ _ h1).2⟩

theorem filter_rowMajor_card {inp : PFInput} {unv : Finset Pos} (hsub : unv ⊆ gridPositions inp)
    (p : Pos → Prop) [DecidablePred p] :
    ((rowMajor inp.row_amount inp.column_amount).filter
      (fun q => decide (p q ∧ q ∈ unv))).length = (unv.filter p).card := by
  have hnd : ((rowMajor inp.row_amount inp.column_amount).filter
      (fun q => decide (p q ∧ q ∈ unv))).Nodup :=
    (rowMajor_nodup _ _).filter _
  rw [← List.toFinset_card_of_nodup hnd]
  congr 1
  ext q
  simp only [List.mem_toFinset, List.mem_filter, decide_eq_true_eq, Finset.mem_filter]
  constructor
  · rintro ⟨_, hp, hq⟩
    exact ⟨hq, hp⟩
  · rintro ⟨hq, hp⟩
    exact ⟨List.mem_toFinset.mp (hsub hq), hp, hq⟩

/-- C6: characterisation of the A* selection policy. -/
theorem claim_C6_theorem (inp : PFInput) (s : AState)
    (hsub : s.unvisited_pos ⊆ gridPositions inp) (hne : s.unvisited_pos.Nonempty) :
    ∃ c k, get_smallest_f_cost_unvisited_node inp s = some (c, k) ∧
      c ∈ s.unvisited_pos ∧
      (∀ q ∈ s.unvisited_pos, s.g c ≤ s.g q) ∧
      k = (s.unvisited_pos.filter (fun q => fCost s q = fCost s c)).card ∧
      1 ≤ k ∧
      (1 < k → ∃ ch, astarChosen inp s = some ch ∧ ch ∈ s.unvisited_pos ∧
        ∀ q ∈ s.unvisited_pos, s.h ch ≤ s.h q) ∧
      (k = 1 → astarChosen inp s = some c) := by
  obtain ⟨q0, hq0⟩ := hne
  have hq0l : q0 ∈ (rowMajor inp.row_amount inp.column_amount).filter
      (fun q => decide (q ∈ s.unvisited_pos)) := by
    simp only [List.mem_filter, decide_eq_true_eq]
    exact ⟨List.mem_toFinset.mp (hsub hq0), hq0⟩
  have hlne : (rowMajor inp.row_amount inp.column_amount).filter
      (fun q => decide (q ∈ s.unvisited_pos)) ≠ [] := by
    intro hnil
    rw [hnil] at hq0l
    cases hq0l
  obtain ⟨c, hc⟩ := @firstMinBy_isSome s.g _ hlne
  have hcmem : c ∈ s.unvisited_pos := by
    have := firstMinBy_mem hc
    simp only [List.mem_filter, decide_eq_true_eq] at this
    exact this.2
  have hcmin : ∀ q ∈ s.unvisited_pos, s.g c ≤ s.g q := by
    intro q hq
    refine firstMinBy_le hc q ?_
    simp only [List.mem_filter, decide_eq_true_eq]
    exact ⟨List.mem_toFinset.mp (hsub (hq)), hq⟩
  have hgetf : get_smallest_f_cost_unvisited_node inp s =
      some (c, ((rowMajor inp.row_amount inp.column_amount).filter
        (fun q => decide (fCost s q = fCost s c ∧ q ∈ s.unvisited_pos))).length) := by
    unfold get_smallest_f_cost_unvisited_node
    rw [hc]
  have hcard := filter_rowMajor_card hsub (fun q => fCost s q = fCost s c)
  set k := (s.unvisited_pos.filter (fun q => fCost s q = fCost s c)).card with hk
  have hk1 : 1 ≤ k := by
    refine Finset.card_pos.mpr ⟨c, ?_⟩
    simp [Finset.mem_filter, hcmem]
  refine ⟨c, k, ?_, hcmem, hcmin, rfl, hk1, ?_, ?_⟩
  · rw [hgetf, hcard]
  · intro hk2
    have hchosen : astarChosen inp s = get_smallest_h_cost_unvisited_node inp s := by
      unfold astarChosen
      rw [hgetf, hcard]
      dsimp only
      rw [if_pos hk2]
    obtain ⟨ch, hch⟩ := @firstMinBy_isSome s.h _ hlne
    have hcheq : get_smallest_h_cost_unvisited_node inp s = some ch := hch
    refine ⟨ch, hchosen.trans hcheq, ?_, ?_⟩
    · have := firstMinBy_mem hch
      simp only [List.mem_filter, decide_eq_true_eq] at this
      exact this.2
    · intro q hq
      refine firstMinBy_le hch q ?_
      simp only [List.mem_filter, decide_eq_true_eq]
      exact ⟨List.mem_toFinset.mp (hsub hq), hq⟩
  · intro hk2
    unfold astarChosen
    rw [hgetf, hcard]
    dsimp only
    rw [hk2, if_neg (by omega)]

/-- C6 witness: the selection characterisation applied to the freshly
initialised A* state on the open 1×4 corridor. -/
theorem claim_C6_witness :
    ((astarInit inputOpen14).unvisited_pos ⊆ gridPositions inputOpen14 ∧
      (astarInit inputOpen14).unvisited_pos.Nonempty) ∧
    (∃ c k, get_smallest_f_cost_unvisited_node inputOpen14 (astarInit inputOpen14)
        = some (c, k) ∧
      c ∈ (astarInit inputOpen14).unvisited_pos ∧
      (∀ q ∈ (astarInit inputOpen14).unvisited_pos,
        (astarInit inputOpen14).g c ≤ (astarInit inputOpen14).g q) ∧
      k = ((astarInit inputOpen14).unvisited_pos.filter
        (fun q => fCost (astarInit inputOpen14) q = fCost (astarInit inputOpen14) c)).card ∧
      1 ≤ k ∧
      (1 < k → ∃ ch, astarChosen inputOpen14 (astarInit inputOpen14) = some ch ∧
        ch ∈ (astarInit inputOpen14).unvisited_pos ∧
        ∀ q ∈ (astarInit inputOpen14).unvisited_pos,
          (astarInit inputOpen14).h ch ≤ (astarInit inputOpen14).h q) ∧
      (k = 1 → astarChosen inputOpen14 (astarInit inputOpen14) = some c)) :=
  ⟨⟨by decide, by decide⟩, claim_C6_theorem inputOpen14 (astarInit inputOpen14)
    (by decide) (by decide)⟩

/-! ## Nonnegativity of the cost-ratio map -/

theorem round3Div_nonneg {v : ℚ} (hv : 0 ≤ v) (n : ℕ) : 0 ≤ round3Div v n := by
  unfold round3Div
  have ha : (0 : ℤ) ≤ 1000 * v.num := by
    have := Rat.num_nonneg.mpr hv
    positivity
  have hb : (0 : ℤ) ≤ (v.den : ℤ) * (n : ℤ) := by positivity
  have hfl : (0 : ℤ) ≤ Int.fdiv (1000 * v.num) ((v.den : ℤ) * (n : ℤ)) :=
    Int.fdiv_nonneg ha hb
  apply Rat.mkRat_nonneg
  dsimp only
  split
  · exact hfl
  · split
    · omega
    · split
      · exact hfl
      · omega

/-- All values of a `mix` map are nonnegative. -/
def MixNonneg (mix : Pos → Option ℚ) : Prop := ∀ p q, mix p = some q → 0 ≤ q

theorem normalizeMix_nonneg {mix : Pos → Option ℚ} {d : WithTop ℕ}
    {mix1 : Pos → Option ℚ} (hm : MixNonneg mix)
    (h : normalizeMix mix d = some mix1) : MixNonneg mix1 := by
  unfold normalizeMix at h
  split at h
  · simp only [Option.some.injEq] at h
    subst h
    intro p q hq
    simp only [Option.map_eq_some'] at hq
    rcases hq with ⟨v, _, rfl⟩
    exact le_refl 0
  · dsimp only at h
    split at h
    · cases h
    · simp only [Option.some.injEq] at h
      subst h
      intro p q hq
      simp only [Option.map_eq_some'] at hq
      rcases hq with ⟨v, hv, rfl⟩
      exact round3Div_nonneg (hm p v hv) _

theorem dijkstraRelaxFold_mix {gc : ℕ} :
    ∀ (l : List Pos) (s : DState), MixNonneg s.mix →
      MixNonneg (l.foldl (dijkstraRelax gc) s).mix := by
  intro l
  induction l with
  | nil => intro s hs; exact hs
  | cons n l ih =>
    intro s hs
    simp only [List.foldl_cons]
    refine ih _ ?_
    unfold dijkstraRelax
    split
    · exact hs
    · intro p q hq
      dsimp only at hq
      by_cases hp : p = n
      · rw [if_pos hp] at hq
        simp only [Option.some.injEq] at hq
        subst hq
        positivity
      · rw [if_neg hp] at hq
        exact hs p q hq

theorem dijkstraStep_mix (inp : PFInput) {s st : DState} (hs : MixNonneg s.mix)
    (h : dijkstraStep inp s = .cont st ∨ dijkstraStep inp s = .done (some st)) :
    MixNonneg st.mix := by
  have hs2 : ∀ (cur : Pos) (hgc : ¬ s.g cur = ⊤),
      MixNonneg (fun q => if q = cur then some (((s.g cur).untop hgc : ℕ) : ℚ)
        else ((get_neighbours inp cur).foldl (dijkstraRelax ((s.g cur).untop hgc)) s).mix q) := by
    intro cur hgc p q hq
    dsimp only at hq
    by_cases hp : p = cur
    · rw [if_pos hp] at hq
      simp only [Option.some.injEq] at hq
      subst hq
      positivity
    · rw [if_neg hp] at hq
      exact dijkstraRelaxFold_mix _ s hs p q hq
  unfold dijkstraStep at h
  split at h
  · rcases h with h | h <;> cases h
  · rename_i cur hsel
    split at h
    · rcases h with h | h
      · cases h
      · simp only [StepRes.done.injEq, Option.some.injEq] at h
        subst h
        exact hs
    · split at h
      · rcases h with h | h
        · cases h
        · simp only [StepRes.done.injEq, Option.some.injEq] at h
          subst h
          exact hs
      · rename_i hgc
        dsimp only at h
        have hfin : ∀ s2 : DState, MixNonneg s2.mix →
            (dijkstraFinish inp s2 = .cont st ∨ dijkstraFinish inp s2 = .done (some st)) →
            MixNonneg st.mix := by
          intro s2 hm2 h2
          rcases h2 with h2 | h2
          · exact absurd h2 (dijkstraFinish_not_cont _ _ _)
          · rcases dijkstraFinish_done inp h2 with ⟨mix1, p, hnm, _, hst⟩
            subst hst
            exact normalizeMix_nonneg hm2 hnm
        split at h
        · exact hfin _ (hs2 cur hgc) h
        · split at h
          · rcases h with h | h <;> cases h
          · split at h
            · exact hfin _ (hs2 cur hgc) h
            · split at h
              · rcases h with h | h <;> cases h
              · rcases h with h | h
                · cases h
                  exact hs2 cur hgc
                · cases h

theorem biMeetRelax_mix (gc : ℕ) (curP : Option Side) :
    ∀ (l : List Pos) (s : BState), MixNonneg s.mix →
      MixNonneg (biMeetRelax gc curP l s).mix := by
  intro l
  induction l with
  | nil => intro s hs; exact hs
  | cons n l ih =>
    intro s hs
    unfold biMeetRelax
    split
    · exact hs
    · dsimp only
      split
      · exact ih s hs
      · refine ih _ ?_
        intro p q hq
        dsimp only at hq
        by_cases hp : p = n
        · rw [if_pos hp] at hq
          simp only [Option.some.injEq] at hq
          subst hq
          positivity
        · rw [if_neg hp] at hq
          exact hs p q hq

theorem biFinish_some (inp : PFInput) {s : BState} {m : Pos} {st : BState}
    (h : biFinish inp s m = some st) :
    ∃ mix1, normalizeMix s.mix (biMiddleG s m) = some mix1 ∧ st.mix = mix1 := by
  unfold biFinish at h
  dsimp only at h
  split at h
  · split at h
    · cases h
    · rename_i mix1 hm
      simp only [Option.some.injEq] at h
      subst h
      exact ⟨mix1, hm, rfl⟩
  · cases h

theorem biStep_mix (inp : PFInput) {s st : BState} (hs : MixNonneg s.mix)
    (h : biStep inp s = .cont st ∨ biStep inp s = .done (some st)) :
    MixNonneg st.mix := by
  unfold biStep at h
  split at h
  · rcases h with h | h <;> cases h
  · rename_i cur hsel
    split at h
    · rcases h with h | h
      · cases h
      · simp only [StepRes.done.injEq, Option.some.injEq] at h
        subst h
        exact hs
    · split at h
      · rcases h with h | h <;> cases h
      · rename_i gc hgc
        dsimp only at h
        have hs2 : MixNonneg (fun q => if q = cur then some ((gc : ℕ) : ℚ)
            else (biMeetRelax gc (s.parent cur) (get_neighbours inp cur) s).mix q) := by
          intro p q hq
          dsimp only at hq
          by_cases hp : p = cur
          · rw [if_pos hp] at hq
            simp only [Option.some.injEq] at hq
            subst hq
            positivity
          · rw [if_neg hp] at hq
            exact biMeetRelax_mix gc (s.parent cur) _ s hs p q hq
        split at h
        · rename_i m hm
          split at h
          · rcases h with h | h <;> cases h
          · rename_i st2 hfin
            rcases h with h | h
            · cases h
            · simp only [StepRes.done.injEq, Option.some.injEq] at h
              subst h
              rcases biFinish_some inp hfin with ⟨mix1, hnm, hmix⟩
              rw [hmix]
              exact normalizeMix_nonneg hs2 hnm
        · split at h
          · rcases h with h | h
            · cases h
              exact hs2
            · cases h
          · rcases h with h | h
            · cases h
            · simp only [StepRes.done.injEq, Option.some.injEq] at h
              subst h
              exact hs2

theorem dijkstraLoop_mix (inp : PFInput) :
    ∀ (fuel : ℕ) (s st : DState), MixNonneg s.mix →
      dijkstraLoop inp fuel s = some st → MixNonneg st.mix := by
  intro fuel
  induction fuel with
  | zero => intro s st _ h; cases h
  | succ fuel ih =>
    intro s st hs h
    unfold dijkstraLoop at h
    split at h
    · rename_i r hstep
      cases h
      exact dijkstraStep_mix inp hs (Or.inr hstep)
    · rename_i s1 hstep
      exact ih s1 st (dijkstraStep_mix inp hs (Or.inl hstep)) h

theorem biLoop_mix (inp : PFInput) :
    ∀ (fuel : ℕ) (s st : BState), MixNonneg s.mix →
      biLoop inp fuel s = some st → MixNonneg st.mix := by
  intro fuel
  induction fuel with
  | zero => intro s st _ h; cases h
  | succ fuel ih =>
    intro s st hs h
    unfold biLoop at h
    split at h
    · rename_i r hstep
      cases h
      exact biStep_mix inp hs (Or.inr hstep)
    · rename_i s1 hstep
      exact ih s1 st (biStep_mix inp hs (Or.inl hstep)) h

/-- C5 (amended): every value stored in the cost-ratio map of a Dijkstra or
bidirectional solve that terminates normally is nonnegative (the recorded
costs are naturals and the normaliser is positive); the upper bound `1` of
the claim fails, per the counterexample. -/
theorem claim_C5_theorem (inp : PFInput) :
    (∀ st p q, dijkstraSolve inp = some st → st.mix p = some q → 0 ≤ q) ∧
    (∀ st p q, bidijkstraSolve inp = some st → st.mix p = some q → 0 ≤ q) := by
  constructor
  · intro st p q h hq
    exact dijkstraLoop_mix inp (dijkstraFuel inp) (dijkstraInit inp) st
      (fun _ _ hc => by cases hc) h p q hq
  · intro st p q h hq
    exact biLoop_mix inp (dijkstraFuel inp) (biInit inp) st
      (fun _ _ hc => by cases hc) h p q hq

/-- The state of the successful Dijkstra solve on the open corridor, for the
C5 witness. -/
def c5State : DState :=
  match dijkstraSolve inputOpen14 with
  | some st => st
  | none => dijkstraInit inputOpen14

/-- C5 witness: the nonnegativity bound evaluated at the ratio `1/2` stored
for cell `(0,1)` on the open 1×4 corridor. -/
theorem claim_C5_witness :
    dijkstraSolve inputOpen14 = some c5State ∧
    c5State.mix (0, 1) = some (mkRat 1 2) ∧ 0 ≤ mkRat 1 2 := by
  have h1 : dijkstraSolve inputOpen14 = some c5State := rfl
  have h2 : c5State.mix (0, 1) = some (mkRat 1 2) := by decide
  exact ⟨h1, h2, (claim_C5_theorem inputOpen14).1 c5State (0, 1) (mkRat 1 2) h1 h2⟩

/-! ## Reachability closure -/

theorem card_gridPositions (inp : PFInput) :
    (gridPositions inp).card = inp.row_amount * inp.column_amount := by
  rw [gridPositions, List.toFinset_card_of_nodup (rowMajor_nodup _ _)]
  rw [rowMajor, List.length_flatMap]
  simp only [Function.comp_def, List.length_map, List.length_range]
  rw [List.map_const', List.sum_replicate, List.length_range, smul_eq_mul]

theorem subset_reachStep (inp : PFInput) (A : Finset Pos) : A ⊆ reachStep inp A :=
  Finset.subset_union_left

theorem reachStep_mono (inp : PFInput) {A B : Finset Pos} (h : A ⊆ B) :
    reachStep inp A ⊆ reachStep inp B := by
  unfold reachStep
  refine Finset.union_subset_union h ?_
  exact Finset.biUnion_subset_biUnion_of_subset_left _ h

theorem reachStep_subset_grid (inp : PFInput) {A : Finset Pos}
    (h : A ⊆ gridPositions inp) : reachStep inp A ⊆ gridPositions inp := by
  unfold reachStep
  refine Finset.union_subset h ?_
  intro q hq
  rcases Finset.mem_biUnion.mp hq with ⟨p, _, hqp⟩
  exact get_neighbours_mem_grid (List.mem_toFinset.mp hqp)

/-- The seed of the closure: the start cell when it is a grid position. -/
def reachSeed (inp : PFInput) : Finset Pos :=
  if inp.start_pos ∈ gridPositions inp then {inp.start_pos} else ∅

theorem reachSet_eq (inp : PFInput) :
    reachSet inp = (reachStep inp)^[inp.row_amount * inp.column_amount] (reachSeed inp) := rfl

theorem reachSeed_subset_grid (inp : PFInput) : reachSeed inp ⊆ gridPositions inp := by
  unfold reachSeed
  split
  · rename_i h
    intro q hq
    rw [Finset.mem_singleton] at hq
    subst hq
    exact h
  · exact Finset.empty_subset _

theorem iterate_reachStep_subset_grid (inp : PFInput) (k : ℕ) :
    (reachStep inp)^[k] (reachSeed inp) ⊆ gridPositions inp := by
  induction k with
  | zero => exact reachSeed_subset_grid inp
  | succ k ih =>
    rw [Function.iterate_succ_apply']
    exact reachStep_subset_grid inp ih

theorem iterate_reachStep_mono_succ (inp : PFInput) (k : ℕ) :
    (reachStep inp)^[k] (reachSeed inp) ⊆ (reachStep inp)^[k + 1] (reachSeed inp) := by
  rw [Function.iterate_succ_apply']
  exact subset_reachStep inp _

theorem iterate_reachStep_stab_step (inp : PFInput) (k : ℕ)
    (h : (reachStep inp)^[k] (reachSeed inp) = (reachStep inp)^[k + 1] (reachSeed inp)) :
    (reachStep inp)^[k + 1] (reachSeed inp) = (reachStep inp)^[k + 2] (reachSeed inp) := by
  have h1 : (reachStep inp)^[k + 2] (reachSeed inp) =
      reachStep inp ((reachStep inp)^[k + 1] (reachSeed inp)) := by
    rw [Function.iterate_succ_apply']
  have h2 : (reachStep inp)^[k + 1] (reachSeed inp) =
      reachStep inp ((reachStep inp)^[k] (reachSeed inp)) := by
    rw [Function.iterate_succ_apply']
  exact h2.trans ((congrArg (reachStep inp) h).trans h1.symm)

theorem iterate_reachStep_stab_ge (inp : PFInput) (k : ℕ)
    (h : (reachStep inp)^[k] (reachSeed inp) = (reachStep inp)^[k + 1] (reachSeed inp)) :
    ∀ m, k ≤ m →
      (reachStep inp)^[m] (reachSeed inp) = (reachStep inp)^[m + 1] (reachSeed inp) := by
  intro m hm
  induction m with
  | zero =>
    have hk : k = 0 := Nat.le_zero.mp hm
    subst hk
    exact h
  | succ m ih =>
    rcases Nat.lt_or_ge k (m + 1) with hlt | hge
    · have := ih (Nat.lt_succ_iff.mp hlt)
      exact iterate_reachStep_stab_step inp m this
    · have hk : k = m + 1 := Nat.le_antisymm hm hge
      subst hk
      exact h

theorem reachStep_fixed (inp : PFInput) :
    reachStep inp (reachSet inp) = reachSet inp := by
  set N := inp.row_amount * inp.column_amount with hN
  by_cases hstab : ∃ k < N, (reachStep inp)^[k] (reachSeed inp) =
      (reachStep inp)^[k + 1] (reachSeed inp)
  · rcases hstab with ⟨k, hk, hfix⟩
    have hNfix := iterate_reachStep_stab_ge inp k hfix N (Nat.le_of_lt hk)
    rw [reachSet_eq, ← hN]
    rw [← Function.iterate_succ_apply' (reachStep inp) N (reachSeed inp)]
    exact hNfix.symm
  · push_neg at hstab
    have hgrow : ∀ k, k ≤ N → k ≤ ((reachStep inp)^[k] (reachSeed inp)).card := by
      intro k
      induction k with
      | zero => intro _; exact Nat.zero_le _
      | succ k ih =>
        intro hk
        have hne := hstab k (Nat.lt_of_succ_le hk)
        have hss : (reachStep inp)^[k] (reachSeed inp) ⊂
            (reachStep inp)^[k + 1] (reachSeed inp) :=
          Finset.ssubset_iff_subset_ne.mpr ⟨iterate_reachStep_mono_succ inp k, hne⟩
        have := Finset.card_lt_card hss
        have hk2 := ih (Nat.le_of_succ_le hk)
        omega
    have hcard : N ≤ ((reachStep inp)^[N] (reachSeed inp)).card := hgrow N (le_refl N)
    have hsub : ((reachStep inp)^[N] (reachSeed inp)) ⊆ gridPositions inp :=
      iterate_reachStep_subset_grid inp N
    have hle : ((reachStep inp)^[N] (reachSeed inp)).card ≤ N := by
      have := Finset.card_le_card hsub
      rw [card_gridPositions] at this
      omega
    -- the set already has full size: one more step cannot grow it
    have hsubN : ((reachStep inp)^[N] (reachSeed inp)) = gridPositions inp := by
      apply Finset.eq_of_subset_of_card_le hsub
      rw [card_gridPositions]
      omega
    rw [reachSet_eq, ← hN, hsubN]
    have h1 : reachStep inp (gridPositions inp) ⊆ gridPositions inp :=
      reachStep_subset_grid inp (Finset.Subset.refl _)
    exact Finset.Subset.antisymm h1 (subset_reachStep inp _)

theorem reachSet_closed {inp : PFInput} {p q : Pos} (hp : p ∈ reachSet inp)
    (hq : q ∈ get_neighbours inp p) : q ∈ reachSet inp := by
  have : q ∈ reachStep inp (reachSet inp) := by
    unfold reachStep
    refine Finset.mem_union_right _ ?_
    exact Finset.mem_biUnion.mpr ⟨p, hp, List.mem_toFinset.mpr hq⟩
  rwa [reachStep_fixed] at this

theorem reachSeed_subset_reachSet (inp : PFInput) : reachSeed inp ⊆ reachSet inp := by
  rw [reachSet_eq]
  generalize inp.row_amount * inp.column_amount = N
  induction N with
  | zero => exact Finset.Subset.refl _
  | succ N ih =>
    rw [Function.iterate_succ_apply']
    exact ih.trans (subset_reachStep inp _)

/-! ## Unreachable ends: the solve drains the frontier and keeps an empty path -/

theorem get_smallest_mem_grid {inp : PFInput} {g : Pos → WithTop ℕ} {unv : Finset Pos}
    {cur : Pos} (h : get_smallest_g_cost_unvisited_node inp g unv = some cur) :
    cur ∈ gridPositions inp := by
  have := firstMinBy_mem h
  simp only [List.mem_filter, decide_eq_true_eq] at this
  exact List.mem_toFinset.mpr this.1

theorem get_neighbours_not_self (inp : PFInput) (p : Pos) : p ∉ get_neighbours inp p := by
  intro h
  have := manh_get_neighbours h
  simp [manh] at this

theorem dijkstraRelaxFold_g_cases (gc : ℕ) :
    ∀ (l : List Pos) (s : DState) (p : Pos),
      (l.foldl (dijkstraRelax gc) s).g p = s.g p ∨ p ∈ l := by
  intro l
  induction l with
  | nil => intro s p; exact Or.inl rfl
  | cons n l ih =>
    intro s p
    simp only [List.foldl_cons]
    rcases ih (dijkstraRelax gc s n) p with h | h
    · rw [h]
      unfold dijkstraRelax
      split
      · exact Or.inl rfl
      · dsimp only
        by_cases hp : p = n
        · exact Or.inr (by simp [hp])
        · rw [if_neg hp]
          exact Or.inl rfl
    · exact Or.inr (List.mem_cons_of_mem _ h)

theorem dijkstraRelaxFold_g_of_not_mem (gc : ℕ) (l : List Pos) (s : DState) (p : Pos)
    (hp : p ∉ l) : (l.foldl (dijkstraRelax gc) s).g p = s.g p := by
  rcases dijkstraRelaxFold_g_cases gc l s p with h | h
  · exact h
  · exact absurd h hp

/-- Invariant of a Dijkstra solve whose end cell is unreachable: the end cell
is still unvisited, the path is still empty, and only reachable cells carry a
finite cost. -/
def DInv (inp : PFInput) (s : DState) : Prop :=
  inp.end_pos ∈ s.unvisited_pos ∧ s.path = [] ∧
  ∀ p ∈ gridPositions inp, s.g p ≠ ⊤ → p ∈ reachSet inp

theorem dijkstraStep_unreach (inp : PFInput)
    (hend : inp.end_pos ∈ gridPositions inp) (hunreach : inp.end_pos ∉ reachSet inp)
    {s : DState} (hinv : DInv inp s) :
    (∃ st, dijkstraStep inp s = .done (some st) ∧ st.path = []) ∨
    (∃ st, dijkstraStep inp s = .cont st ∧ DInv inp st ∧
      st.unvisited_pos.card < s.unvisited_pos.card) := by
  obtain ⟨hEndUnv, hPath, hReach⟩ := hinv
  have hgend : s.g inp.end_pos = ⊤ := by
    by_contra hne
    exact hunreach (hReach _ hend hne)
  rcases hstep : dijkstraStep inp s with r | st
  · -- the done results: only the two top guards can fire
    left
    unfold dijkstraStep at hstep
    split at hstep
    · rename_i hsel
      obtain ⟨cur, hcur⟩ := @get_smallest_isSome inp s.g _ _ hEndUnv hend
      rw [hsel] at hcur
      cases hcur
    · rename_i cur hsel
      have hcurUnv : cur ∈ s.unvisited_pos := get_smallest_mem hsel
      have hcurGrid : cur ∈ gridPositions inp := get_smallest_mem_grid hsel
      split at hstep
      · cases hstep
        exact ⟨s, rfl, hPath⟩
      · split at hstep
        · cases hstep
          exact ⟨s, rfl, hPath⟩
        · rename_i hgc
          dsimp only at hstep
          have hgcur : ((get_neighbours inp cur).foldl
              (dijkstraRelax ((s.g cur).untop hgc)) s).g cur = s.g cur :=
            dijkstraRelaxFold_g_of_not_mem _ _ s cur (get_neighbours_not_self inp cur)
          have hfr := (dijkstraRelaxFold_frame ((s.g cur).untop hgc)
            (get_neighbours inp cur) s).1
          split at hstep
          · rename_i hin
            rw [hfr] at hin
            exact absurd hEndUnv hin
          · rename_i hin
            split at hstep
            · rename_i hsel2
              obtain ⟨m, hm⟩ := @get_smallest_isSome inp
                ((get_neighbours inp cur).foldl
                  (dijkstraRelax ((s.g cur).untop hgc)) s).g _ _
                (show inp.end_pos ∈ ((get_neighbours inp cur).foldl
                    (dijkstraRelax ((s.g cur).untop hgc)) s).unvisited_pos by
                  rw [hfr]; exact hEndUnv) hend
              rw [show get_smallest_g_cost_unvisited_node inp _ _ = none from hsel2] at hm
              cases hm
            · rename_i m hsel2
              split at hstep
              · rename_i hmtop
                have hle := get_smallest_le hsel2 cur
                  (show cur ∈ ((get_neighbours inp cur).foldl
                      (dijkstraRelax ((s.g cur).untop hgc)) s).unvisited_pos by
                    rw [hfr]; exact hcurUnv) hcurGrid
                rw [hgcur] at hle
                exact absurd (eq_top_iff.mpr (hmtop ▸ hle)) hgc
              · split at hstep
                · rename_i hsel3
                  have hendNe : inp.end_pos ≠ cur := by
                    intro he
                    rw [← he] at hgc
                    exact hgc hgend
                  obtain ⟨m3, hm3⟩ := @get_smallest_isSome inp
                    ((get_neighbours inp cur).foldl
                      (dijkstraRelax ((s.g cur).untop hgc)) s).g _ _
                    (show inp.end_pos ∈ (((get_neighbours inp cur).foldl
                        (dijkstraRelax ((s.g cur).untop hgc)) s).unvisited_pos).erase cur by
                      rw [hfr]; exact Finset.mem_erase.mpr ⟨hendNe, hEndUnv⟩) hend
                  rw [show get_smallest_g_cost_unvisited_node inp _ _ = none from hsel3] at hm3
                  cases hm3
                · cases hstep
  · -- the continuing branch keeps the invariant and shrinks the frontier
    right
    refine ⟨st, rfl, ?_⟩
    have hstep2 := hstep
    unfold dijkstraStep at hstep2
    split at hstep2
    · cases hstep2
    · rename_i cur hsel
      have hcurUnv : cur ∈ s.unvisited_pos := get_smallest_mem hsel
      have hcurGrid : cur ∈ gridPositions inp := get_smallest_mem_grid hsel
      split at hstep2
      · cases hstep2
      · split at hstep2
        · cases hstep2
        · rename_i hgc
          dsimp only at hstep2
          have hcurReach : cur ∈ reachSet inp := hReach cur hcurGrid hgc
          have hendNe : inp.end_pos ≠ cur := by
            intro he
            rw [← he] at hgc
            exact hgc hgend
          split at hstep2
          · exact absurd hstep2 (dijkstraFinish_not_cont _ _ _)
          · split at hstep2
            · cases hstep2
            · split at hstep2
              · exact absurd hstep2 (dijkstraFinish_not_cont _ _ _)
              · split at hstep2
                · cases hstep2
                · cases hstep2
                  have hframe := dijkstraRelaxFold_frame ((s.g cur).untop hgc)
                    (get_neighbours inp cur) s
                  refine ⟨⟨?_, ?_, ?_⟩, ?_⟩
                  · simp only [hframe.1, Finset.mem_erase]
                    exact ⟨hendNe, hEndUnv⟩
                  · simpa [hframe.2.2] using hPath
                  · intro p hpGrid hpTop
                    rcases dijkstraRelaxFold_g_cases ((s.g cur).untop hgc)
                      (get_neighbours inp cur) s p with hcase | hcase
                    · simp only [hcase] at hpTop
                      exact hReach p hpGrid hpTop
                    · exact reachSet_closed hcurReach hcase
                  · simp only [hframe.1]
                    exact Finset.card_erase_lt_of_mem hcurUnv

theorem dijkstraLoop_unreach (inp : PFInput)
    (hend : inp.end_pos ∈ gridPositions inp) (hunreach : inp.end_pos ∉ reachSet inp) :
    ∀ (fuel : ℕ) (s : DState), DInv inp s → s.unvisited_pos.card < fuel →
      ∃ st, dijkstraLoop inp fuel s = some st ∧ st.path = [] := by
  intro fuel
  induction fuel with
  | zero => intro s _ hcard; omega
  | succ fuel ih =>
    intro s hinv hcard
    rcases dijkstraStep_unreach inp hend hunreach hinv with
      ⟨st, hst, hp⟩ | ⟨st, hst, hinv2, hlt⟩
    · refine ⟨st, ?_, hp⟩
      unfold dijkstraLoop
      rw [hst]
    · obtain ⟨st2, hloop, hp2⟩ := ih st hinv2 (by omega)
      refine ⟨st2, ?_, hp2⟩
      unfold dijkstraLoop
      rw [hst]
      exact hloop

/-- C2: whenever the end position is a grid cell that cannot be reached from
the start (the reachability closure of the start avoiding walls misses it),
the Dijkstra solve terminates normally — no `min([])`, no division by zero,
no reconstruction — with an empty path and whatever visited sequence it
accumulated: the end cell never leaves the unvisited set, so the
reconstruction branch is never entered, and the run ends at the
infinite-cost guard. -/
theorem claim_C2_theorem (inp : PFInput)
    (hend : inp.end_pos ∈ gridPositions inp) (hunreach : inp.end_pos ∉ reachSet inp) :
    ∃ st, dijkstraSolve inp = some st ∧ st.path = [] := by
  have hinv : DInv inp (dijkstraInit inp) := by
    refine ⟨hend, rfl, ?_⟩
    intro p hpGrid hpTop
    unfold dijkstraInit at hpTop
    dsimp only at hpTop
    by_cases hp : p = inp.start_pos
    · subst hp
      apply reachSeed_subset_reachSet
      unfold reachSeed
      rw [if_pos hpGrid]
      exact Finset.mem_singleton_self _
    · rw [if_neg hp] at hpTop
      exact absurd rfl hpTop
  have hcard : (dijkstraInit inp).unvisited_pos.card < dijkstraFuel inp := by
    show (gridPositions inp).card < dijkstraFuel inp
    rw [card_gridPositions]
    unfold dijkstraFuel
    omega
  exact dijkstraLoop_unreach inp hend hunreach (dijkstraFuel inp) (dijkstraInit inp)
    hinv hcard

/-- C2 witness: the fully enclosed end cell on the 3×3 grid. -/
theorem claim_C2_witness :
    (inputEnclosed.end_pos ∈ gridPositions inputEnclosed ∧
      inputEnclosed.end_pos ∉ reachSet inputEnclosed) ∧
    (∃ st, dijkstraSolve inputEnclosed = some st ∧ st.path = []) :=
  ⟨⟨by decide, by decide⟩, claim_C2_theorem inputEnclosed (by decide) (by decide)⟩
